import Mathlib

/-!
Verification development for the MDX formatting pipeline of `src/formatter.rs`
(hoa-backend).  Every definition below is a shallow embedding of the
corresponding Rust function, working over `List Char` (with `String` wrappers
at the pipeline entry).  Regex-based passes are embedded as explicit scanners
whose semantics match the regex engine's leftmost / lazy / greedy behaviour on
the patterns actually used; search-and-continue loops use a fuel argument that
is always instantiated with `length + 1`, which suffices because every step
consumes at least one character.
-/

namespace Hoa

/-- ASCII whitespace, matching the characters relevant to `\s` and `str::trim`
for the documents this tool processes. -/
def isWsChar (c : Char) : Bool :=
  c = ' ' || c = '\t' || c = '\n' || c = '\r' || c = '\x0B' || c = '\x0C'

/-- `startsWithL p s` : `p` is a prefix of `s`. -/
def startsWithL : List Char → List Char → Bool
  | [], _ => true
  | _ :: _, [] => false
  | p :: ps, c :: cs => p = c && startsWithL ps cs

/-- `hasSubstr p s` : `p` occurs as a contiguous substring of `s`
(Rust `str::contains`). -/
def hasSubstr (p : List Char) : List Char → Bool
  | [] => startsWithL p []
  | c :: cs => startsWithL p (c :: cs) || hasSubstr p cs

/-- `containsChar s c` : the character `c` occurs in `s`. -/
def containsChar : List Char → Char → Bool
  | [], _ => false
  | c :: cs, x => c = x || containsChar cs x

/-- Left-trim by a Boolean character predicate. -/
def dropWhileL (p : Char → Bool) : List Char → List Char
  | [] => []
  | c :: cs => if p c then dropWhileL p cs else c :: cs

/-- Rust `str::trim` (both ends). -/
def trimL (s : List Char) : List Char :=
  (dropWhileL isWsChar (dropWhileL isWsChar s).reverse).reverse

/-- Rust `str::split(sep)` on a single separator character:
`"a;;b" ↦ ["a", "", "b"]`, `"" ↦ [""]`. -/
def splitOnCharL (sep : Char) : List Char → List (List Char)
  | [] => [[]]
  | c :: cs =>
    if c = sep then [] :: splitOnCharL sep cs
    else
      match splitOnCharL sep cs with
      | [] => [[c]]
      | p :: ps => (c :: p) :: ps

/-- `Vec::join(sep)`. -/
def joinWith (sep : List Char) : List (List Char) → List Char
  | [] => []
  | [x] => x
  | x :: xs => x ++ sep ++ joinWith sep xs

/-- Rust `str::lines()`: split on `'\n'`, strip a trailing `'\r'` only from
lines that were terminated by a `'\n'` (a line ending is `'\n'` or `"\r\n"`;
a bare final `'\r'` with no following newline is kept), and do not yield a
final empty line for a trailing newline. -/
def linesL (s : List Char) : List (List Char) :=
  let strip : List Char → List Char := fun l =>
    match l.getLast? with
    | some '\r' => l.dropLast
    | _ => l
  if s = [] then []
  else
    let parts := splitOnCharL '\n' s
    if s.getLast? = some '\n' then
      -- the final empty piece is dropped; every remaining piece was
      -- newline-terminated, so each may shed one trailing '\r'
      parts.dropLast.map strip
    else
      -- every piece but the last was newline-terminated
      match parts.getLast? with
      | some lastPart => parts.dropLast.map strip ++ [lastPart]
      | none => []

/-- `str::replacen(pat, rep, 1)`: replace the first occurrence only. -/
def replaceFirst (p r : List Char) : List Char → List Char
  | [] => if startsWithL p [] then r else []
  | c :: cs =>
    if startsWithL p (c :: cs) then r ++ (c :: cs).drop p.length
    else c :: replaceFirst p r cs

/-- Generic leftmost search-and-replace driver shared by all regex-style
passes.  `step s` returns `some (replacement, rest)` when the pattern matches
at the head of `s` (with `rest` the text after the match), `none` otherwise.
Matches always consume at least one character, so fuel `length + 1` is enough
to process the whole input. -/
def scanReplace (step : List Char → Option (List Char × List Char)) :
    Nat → List Char → List Char
  | 0, s => s
  | fuel + 1, s =>
    match step s with
    | some (repl, rest) => repl ++ scanReplace step fuel rest
    | none =>
      match s with
      | [] => []
      | c :: cs => c :: scanReplace step fuel cs

/-! ## Structural cleaner (`remove_html_comments`, `remove_shield_badges`,
`fix_self_closing_tags`, `fix_malformed_html`) -/

/-- Scan for the closing `-->` of an HTML comment (lazy `[\s\S]*?`). -/
def findCommentClose : List Char → Option (List Char)
  | [] => none
  | c :: cs =>
    if startsWithL ("-->".toList) (c :: cs) then some ((c :: cs).drop 3)
    else findCommentClose cs

/-- One match of `<!--[\s\S]*?-->`, replaced by the empty string. -/
def stepComment (s : List Char) : Option (List Char × List Char) :=
  if startsWithL ("<!--".toList) s then
    match findCommentClose (s.drop 4) with
    | some rest => some ([], rest)
    | none => none
  else none

/-- `remove_html_comments`. -/
def remove_html_comments (s : List Char) : List Char :=
  scanReplace stepComment (s.length + 1) s

/-- `remove_shield_badges`: drop every line containing the shields.io host. -/
def remove_shield_badges (s : List Char) : List Char :=
  joinWith ['\n']
    ((splitOnCharL '\n' s).filter
      (fun line => !hasSubstr ("https://img.shields.io".toList) line))

/-- One match of `<br\s*>`, replaced by `<br />`. -/
def stepBr (s : List Char) : Option (List Char × List Char) :=
  if startsWithL ("<br".toList) s then
    let t := dropWhileL isWsChar (s.drop 3)
    match t with
    | '>' :: rest => some ("<br />".toList, rest)
    | _ => none
  else none

/-- One match of `<hr\s*>`, replaced by `<hr />`. -/
def stepHr (s : List Char) : Option (List Char × List Char) :=
  if startsWithL ("<hr".toList) s then
    let t := dropWhileL isWsChar (s.drop 3)
    match t with
    | '>' :: rest => some ("<hr />".toList, rest)
    | _ => none
  else none

/-- `fix_self_closing_tags`: `<br\s*>` then `<hr\s*>`. -/
def fix_self_closing_tags (s : List Char) : List Char :=
  let r := scanReplace stepBr (s.length + 1) s
  scanReplace stepHr (r.length + 1) r

/-- One match of `<tr>\s*</table>`, replaced by `</table>`. -/
def stepTrTable (s : List Char) : Option (List Char × List Char) :=
  if startsWithL ("<tr>".toList) s then
    let t := dropWhileL isWsChar (s.drop 4)
    if startsWithL ("</table>".toList) t then some ("</table>".toList, t.drop 8)
    else none
  else none

/-- One match of `<tr>\s*</tr>`, replaced by the empty string. -/
def stepTrEmpty (s : List Char) : Option (List Char × List Char) :=
  if startsWithL ("<tr>".toList) s then
    let t := dropWhileL isWsChar (s.drop 4)
    if startsWithL ("</tr>".toList) t then some ([], t.drop 5)
    else none
  else none

/-- `fix_malformed_html`. -/
def fix_malformed_html (s : List Char) : List Char :=
  let r := scanReplace stepTrTable (s.length + 1) s
  scanReplace stepTrEmpty (r.length + 1) r

/-! ## Inline-style rewriter (`css_property_to_camel_case`,
`convert_style_to_jsx`) -/

/-- ASCII uppercasing of the first character of a hyphen segment
(Rust `char::to_uppercase(...).next().unwrap()` on the inputs in scope). -/
def upFirst : List Char → List Char
  | [] => []
  | c :: cs => c.toUpper :: cs

/-- `css_property_to_camel_case`: split the trimmed property on `'-'`, keep
the first segment, capitalize the first letter of each later nonempty
segment, and drop the hyphens. -/
def css_property_to_camel_case (prop : List Char) : List Char :=
  match splitOnCharL '-' (trimL prop) with
  | [] => []
  | p :: ps =>
    p ++ (ps.map (fun part => if part = [] then [] else upFirst part)).flatten

/-- `str::splitn(2, ':')`: split on the first colon only. -/
def splitFirstColon : List Char → Option (List Char × List Char)
  | [] => none
  | c :: cs =>
    if c = ':' then some ([], cs)
    else (splitFirstColon cs).map (fun pr => (c :: pr.1, pr.2))

/-- The closure body of `convert_style_to_jsx`: parse a captured `style`
value into JSX object-literal properties. -/
def renderStyle (styleStr : List Char) : List Char :=
  let props :=
    (splitOnCharL ';' styleStr).filterMap (fun seg =>
      let prop := trimL seg
      if prop = [] || !containsChar prop ':' then none
      else
        match splitFirstColon prop with
        | some (lhs, rhs) =>
          some (css_property_to_camel_case (trimL lhs) ++ (": \"".toList)
            ++ trimL rhs ++ ['\"'])
        | none => none)
  if props = [] then []
  else ("style=\x7b\x7b".toList) ++ joinWith (", ".toList) props ++ ("\x7d\x7d".toList)

/-- Capture `([^"]*)"`: everything up to the next double quote, which must
exist for the regex `style="([^"]*)"` to match. -/
def captureToQuote : List Char → Option (List Char × List Char)
  | [] => none
  | c :: cs =>
    if c = '\"' then some ([], cs)
    else (captureToQuote cs).map (fun pr => (c :: pr.1, pr.2))

/-- One match of `style="([^"]*)"`, replaced through `renderStyle`. -/
def stepStyle (s : List Char) : Option (List Char × List Char) :=
  if startsWithL ("style=\"".toList) s then
    match captureToQuote (s.drop 7) with
    | some (v, rest) => some (renderStyle v, rest)
    | none => none
  else none

/-- `convert_style_to_jsx`. -/
def convert_style_to_jsx (s : List Char) : List Char :=
  scanReplace stepStyle (s.length + 1) s

/-! ## Shortcode converter (`convert_hugo_details_to_accordion`,
`wrap_accordions_in_container`) -/

/-- Match the opener `\{\{% details title="([^"]*)"[^%]*%\}\}` at the head of
`s`.  The title capture is bounded by the next quote; `[^%]*` cannot cross a
`%`, so it deterministically runs to the first `%`, which must start `%}}`.
Returns the captured title and the text after the opener. -/
def matchHugoOpen (s : List Char) : Option (List Char × List Char) :=
  if startsWithL ("\x7b\x7b% details title=\"".toList) s then
    match captureToQuote (s.drop 19) with
    | some (title, rest) =>
      let t := dropWhileL (fun c => !(c = '%')) rest
      if startsWithL ("%\x7d\x7d".toList) t then some (title, t.drop 3)
      else none
    | none => none
  else none

/-- Parse the text `w` standing between an opener and a closer as
`\s*(.+?)\s*` (with `.` not matching `'\n'`) while keeping the greedy
leading `\s*` maximal, and return the regex engine's capture for `(.+?)`.
With `\s*` maximal the body starts at the first non-whitespace character and,
being lazy with a greedy trailing `\s*`, ends at the last non-whitespace
character, so the capture is `w` trimmed at both ends — valid when that core
is nonempty and newline-free.  Returns `none` when `w` is all whitespace
(the maximal `\s*` leaves nothing for the mandatory body; see
`hugoWsBody` for the backtracking fallback) or when the core crosses a
newline. -/
def hugoBody (w : List Char) : Option (List Char) :=
  let r := dropWhileL isWsChar w
  if r = [] then none
  else
    let body := (dropWhileL isWsChar r.reverse).reverse
    if containsChar body '\n' then none else some body

/-- Backtracking fallback of `\s*(.+?)\s*` for an all-whitespace `w`, used
only when no completion with the maximal leading `\s*` exists anywhere later:
the engine shortens the greedy `\s*` one character at a time until the next
character can serve as the one-character lazy body (any non-`'\n'`
character), so the capture is the last non-`'\n'` character of `w`. -/
def hugoWsBody (w : List Char) : Option (List Char) :=
  match (w.filter (fun c => !(c = '\n'))).getLast? with
  | some c => some [c]
  | none => none

/-- Scan for the closer `\{\{% /details %\}\}` ending the lazy body of the
single-line shortcode regex.  At each closer occurrence, if the preceding
text has a non-whitespace core the match succeeds there when the core is
newline-free and otherwise the lazy body extends past this closer (a
newline-crossing core stays newline-crossing, so later ends fail too, which
the continued scan reproduces).  If the preceding text is all whitespace,
the greedy leading `\s*` — a higher-priority choice point than the lazy
body — stays maximal and the body extends across this closer; only when no
later completion exists does the engine backtrack `\s*` and accept a
one-character whitespace body here. -/
def findHugoClose (acc : List Char) : List Char → Option (List Char × List Char)
  | [] => none
  | c :: cs =>
    if startsWithL ("\x7b\x7b% /details %\x7d\x7d".toList) (c :: cs) then
      match hugoBody acc.reverse with
      | some body => some (body, (c :: cs).drop 16)
      | none =>
        if dropWhileL isWsChar acc.reverse = [] then
          match findHugoClose (c :: acc) cs with
          | some res => some res
          | none =>
            match hugoWsBody acc.reverse with
            | some body => some (body, (c :: cs).drop 16)
            | none => none
        else findHugoClose (c :: acc) cs
    else findHugoClose (c :: acc) cs

/-- One match of the single-line shortcode regex, replaced by
`<Accordion title="$1">\n$2\n</Accordion>`. -/
def stepHugoSingle (s : List Char) : Option (List Char × List Char) :=
  match matchHugoOpen s with
  | some (title, rest) =>
    match findHugoClose [] rest with
    | some (body, rest') =>
      some (("<Accordion title=\"".toList) ++ title ++ ("\">\n".toList)
        ++ body ++ ("\n</Accordion>".toList), rest')
    | none => none
  | none => none

/-- One match of the bare opener regex, replaced by `<Accordion title="$1">`. -/
def stepHugoOpen (s : List Char) : Option (List Char × List Char) :=
  match matchHugoOpen s with
  | some (title, rest) =>
    some (("<Accordion title=\"".toList) ++ title ++ ("\">".toList), rest)
  | none => none

/-- One match of `([^\n])\s*\{\{% /details %\}\}`, replaced by
`$1\n</Accordion>`. -/
def stepHugoClosing (s : List Char) : Option (List Char × List Char) :=
  match s with
  | [] => none
  | c :: cs =>
    if c = '\n' then none
    else
      let t := dropWhileL isWsChar cs
      if startsWithL ("\x7b\x7b% /details %\x7d\x7d".toList) t then
        some (c :: ("\n</Accordion>".toList), t.drop 16)
      else none

/-- One literal occurrence of `{{% /details %}}`, replaced by `</Accordion>`
(Rust `str::replace`). -/
def stepHugoLiteral (s : List Char) : Option (List Char × List Char) :=
  if startsWithL ("\x7b\x7b% /details %\x7d\x7d".toList) s then
    some ("</Accordion>".toList, s.drop 16)
  else none

/-- The look-ahead of `wrap_accordions_in_container`: is the next non-blank
line (after trimming) one that contains `"<Accordion "`? -/
def nextIsAccordion : List (List Char) → Bool
  | [] => false
  | l :: ls =>
    let t := trimL l
    if t = [] then nextIsAccordion ls
    else hasSubstr ("<Accordion ".toList) t

/-- The line loop of `wrap_accordions_in_container`.  State: the remaining
lines, the in-sequence flag, the buffered accordion lines, the nesting depth
and the accumulated result lines. -/
def wrapGo : List (List Char) → Bool → List (List Char) → Int →
    List (List Char) → List (List Char)
  | [], inSeq, buffer, _, result =>
    -- after the loop: a nonempty buffer (which is exactly an unflushed,
    -- still-open sequence) is wrapped and flushed
    let _ := inSeq
    if buffer = [] then result
    else result ++ (("<Accordions>".toList) :: buffer) ++ [("</Accordions>".toList)]
  | line :: ls, inSeq, buffer, depth, result =>
    if hasSubstr ("<Accordion ".toList) line && !inSeq then
      wrapGo ls true [line] 1 result
    else if inSeq then
      let buffer := buffer ++ [line]
      let depth :=
        depth + (if hasSubstr ("<Accordion ".toList) line then 1 else 0)
      let depth :=
        depth - (if hasSubstr ("</Accordion>".toList) line then 1 else 0)
      if depth = 0 then
        if !nextIsAccordion ls then
          wrapGo ls false [] depth
            (result ++ (("<Accordions>".toList) :: buffer)
              ++ [("</Accordions>".toList)])
        else wrapGo ls inSeq buffer depth result
      else wrapGo ls inSeq buffer depth result
    else wrapGo ls inSeq buffer depth (result ++ [line])

/-- `wrap_accordions_in_container`. -/
def wrap_accordions_in_container (s : List Char) : List Char :=
  joinWith ['\n'] (wrapGo (linesL s) false [] 0 [])

/-- `convert_hugo_details_to_accordion`: single-line shortcodes, then bare
openers, then closers moved to their own line, then remaining literal
closers, then accordion grouping. -/
def convert_hugo_details_to_accordion (s : List Char) : List Char :=
  let r1 := scanReplace stepHugoSingle (s.length + 1) s
  let r2 := scanReplace stepHugoOpen (r1.length + 1) r1
  let r3 := scanReplace stepHugoClosing (r2.length + 1) r2
  let r4 := scanReplace stepHugoLiteral (r3.length + 1) r3
  wrap_accordions_in_container r4

/-! ## Fenced-code protection (the "placeholder vault" used by both math
passes) -/

/-- Find the lazy closing fence of ```` ```[\s\S]*?``` ````: the matched
region up to and including the next triple backtick. -/
def findFenceClose (acc : List Char) : List Char → Option (List Char × List Char)
  | [] => none
  | c :: cs =>
    if startsWithL ("```".toList) (c :: cs) then
      some (acc.reverse ++ ("```".toList), (c :: cs).drop 3)
    else findFenceClose (c :: acc) cs

/-- One fenced-code match (full matched text, remainder). -/
def fenceMatch (s : List Char) : Option (List Char × List Char) :=
  if startsWithL ("```".toList) s then
    match findFenceClose [] (s.drop 3) with
    | some (body, rest) => some (("```".toList) ++ body, rest)
    | none => none
  else none

/-- `find_iter` for the fenced-code regex: all non-overlapping matches in
document order. -/
def findFences : Nat → List Char → List (List Char)
  | 0, _ => []
  | fuel + 1, s =>
    match fenceMatch s with
    | some (m, rest) => m :: findFences fuel rest
    | none =>
      match s with
      | [] => []
      | _ :: cs => findFences fuel cs

/-- The placeholder token `___CODE_BLOCK_PLACEHOLDER_{i}___`. -/
def placeholderTok (i : Nat) : List Char :=
  ("___CODE_BLOCK_PLACEHOLDER_".toList) ++ Nat.toDigits 10 i ++ ("___".toList)

/-- Replace each extracted code block (in order) by its placeholder, using
`replacen(..., 1)` as the Rust code does. -/
def protectLoop (i : Nat) : List (List Char) → List Char → List Char
  | [], s => s
  | b :: bs, s => protectLoop (i + 1) bs (replaceFirst b (placeholderTok i) s)

/-- One literal occurrence of a given pattern, for `str::replace`. -/
def stepLiteral (p r : List Char) (s : List Char) :
    Option (List Char × List Char) :=
  if startsWithL p s then some (r, s.drop p.length) else none

/-- `str::replace(pat, rep)`: replace all occurrences. -/
def replaceAllLit (p r s : List Char) : List Char :=
  scanReplace (stepLiteral p r) (s.length + 1) s

/-- Restore each placeholder (in order) to its original code block. -/
def restoreLoop (i : Nat) : List (List Char) → List Char → List Char
  | [], s => s
  | b :: bs, s => restoreLoop (i + 1) bs (replaceAllLit (placeholderTok i) b s)

/-! ## Block-math conversion (`convert_math_blocks`) -/

/-- Lazy search for the closing of `([\s\S]*?)(\r?\n)?\$\$`: at each content
length, first try an optional newline followed by `$$`, then bare `$$`.
Returns the captured content and the text after the whole match. -/
def tryMathClose (acc : List Char) : List Char → Option (List Char × List Char)
  | [] => none
  | c :: cs =>
    if c = '\r' && startsWithL ("\n$$".toList) cs then
      some (acc.reverse, cs.drop 3)
    else if c = '\n' && startsWithL ("$$".toList) cs then
      some (acc.reverse, cs.drop 2)
    else if c = '$' && startsWithL ("$".toList) cs then
      some (acc.reverse, cs.drop 1)
    else tryMathClose (c :: acc) cs

/-- One match of `\$\$(\r?\n)?([\s\S]*?)(\r?\n)?\$\$`, replaced by
`"```math\n{content}\n```"` (the Rust closure emits the same text whether or
not the delimiter newlines were present). -/
def stepMath (s : List Char) : Option (List Char × List Char) :=
  if startsWithL ("$$".toList) s then
    let t := s.drop 2
    let g1 :=
      if startsWithL ("\r\n".toList) t then 2
      else if startsWithL ("\n".toList) t then 1
      else 0
    match tryMathClose [] (t.drop g1) with
    | some (content, rest) =>
      some (("```math\n".toList) ++ content ++ ("\n```".toList), rest)
    | none => none
  else none

/-- `convert_math_blocks`: protect fenced code, rewrite every double-dollar
region, restore fenced code. -/
def convert_math_blocks (content : List Char) : List Char :=
  let blocks := findFences (content.length + 1) content
  let prot := protectLoop 0 blocks content
  let res := scanReplace stepMath (prot.length + 1) prot
  restoreLoop 0 blocks res

/-! ## Inline-math conversion (`convert_inline_math`) -/

/-- `result.ends_with('$')`. -/
def endsWithDollar (r : List Char) : Bool :=
  r.getLast? = some '$'

/-- The character loop of `convert_inline_math`.  Arguments mirror the Rust
locals: the remaining input, the accumulated `result`, the `in_math` flag
and the `math_buffer`. -/
def inlineLoop : List Char → List Char → Bool → List Char → List Char
  | [], result, inMath, buffer =>
    if inMath then result ++ '$' :: buffer else result
  | c :: cs, result, inMath, buffer =>
    if c = '$' then
      if cs.head? = some '$' then
        inlineLoop cs (result ++ ['$']) inMath buffer
      else if endsWithDollar result then
        inlineLoop cs (result ++ ['$']) inMath buffer
      else if inMath then
        inlineLoop cs (result ++ ("$$".toList) ++ buffer ++ ("$$".toList)) false []
      else if cs.head? = some '\n' then
        inlineLoop cs (result ++ ['$']) inMath buffer
      else
        inlineLoop cs result true buffer
    else if inMath then
      if c = '\n' then
        inlineLoop cs (result ++ '$' :: buffer ++ ['\n']) false []
      else
        inlineLoop cs result inMath (buffer ++ [c])
    else
      inlineLoop cs (result ++ [c]) inMath buffer

/-- `convert_inline_math`: protect fenced code, promote single-dollar spans,
restore fenced code. -/
def convert_inline_math (content : List Char) : List Char :=
  let blocks := findFences (content.length + 1) content
  let prot := protectLoop 0 blocks content
  let res := inlineLoop prot [] false []
  restoreLoop 0 blocks res

/-! ## Blank-line collapse and the pipeline orchestrator (`format_mdx_file`) -/

/-- Emit a pending run of `k` newlines: runs of three or more collapse to
exactly two (the regex `\n{3,}` replaced by `"\n\n"`). -/
def emitRun (k : Nat) : List Char :=
  if 3 ≤ k then ['\n', '\n'] else List.replicate k '\n'

/-- Single pass over the text accumulating the current newline-run length. -/
def collapseGo (k : Nat) : List Char → List Char
  | [] => emitRun k
  | c :: cs =>
    if c = '\n' then collapseGo (k + 1) cs
    else emitRun k ++ c :: collapseGo 0 cs

/-- The final clean-up of `format_mdx_file`: `re.replace_all("\n{3,}", "\n\n")`. -/
def collapse_blank_lines (s : List Char) : List Char :=
  collapseGo 0 s

/-- The transformation order of `format_mdx_file`, on character lists. -/
def format_core (s : List Char) : List Char :=
  collapse_blank_lines
    (convert_inline_math
      (convert_math_blocks
        (convert_hugo_details_to_accordion
          (convert_style_to_jsx
            (fix_malformed_html
              (fix_self_closing_tags
                (remove_shield_badges
                  (remove_html_comments s))))))))

/-- `format_mdx_file`. -/
def format_mdx_file (s : String) : String :=
  String.mk (format_core s.toList)

/-- Modelled from the spec: the pass order stated in §2's data flow —
Structural Cleaner → Inline-Style Rewriter → Math Normalizer (block then
inline) → Shortcode Converter → blank-line collapse.  It differs from
`format_core` only in running the math passes before the shortcode pass. -/
def spec_order_core (s : List Char) : List Char :=
  collapse_blank_lines
    (convert_hugo_details_to_accordion
      (convert_inline_math
        (convert_math_blocks
          (convert_style_to_jsx
            (fix_malformed_html
              (fix_self_closing_tags
                (remove_shield_badges
                  (remove_html_comments s))))))))

/-- Modelled from the spec: the full pipeline in the spec's stated order. -/
def spec_order_pipeline (s : String) : String :=
  String.mk (spec_order_core s.toList)

/-- `true` iff the text contains three consecutive newline characters. -/
def hasTripleNewline : List Char → Bool
  | a :: b :: c :: l =>
    (a = '\n' && b = '\n' && c = '\n') || hasTripleNewline (b :: c :: l)
  | _ => false

/-- An optional single newline, for stating the block-math delimiter shapes
`$$` / `$$\n` of the regex `\$\$(\r?\n)?([\s\S]*?)(\r?\n)?\$\$`. -/
def optNl (b : Bool) : List Char :=
  if b then ['\n'] else []

/-! ## General helper lemmas -/

theorem toList_mk (l : List Char) : (String.mk l).toList = l := rfl

theorem containsChar_append (a b : List Char) (x : Char) :
    containsChar (a ++ b) x = (containsChar a x || containsChar b x) := by
  induction a with
  | nil => simp [containsChar]
  | cons c cs ih => simp [containsChar, ih, Bool.or_assoc]

theorem startsWithL_append_self (p x : List Char) :
    startsWithL p (p ++ x) = true := by
  induction p with
  | nil => simp [startsWithL]
  | cons c cs ih => simp [startsWithL, ih]

/-! ## Lemmas for the blank-line collapse (claim C10) -/

theorem hasTriple_cons_ne (c : Char) (hc : ¬ c = '\n') (l : List Char) :
    hasTripleNewline (c :: l) = hasTripleNewline l := by
  match l with
  | [] => simp [hasTripleNewline]
  | [d] => simp [hasTripleNewline]
  | d :: e :: l' => simp [hasTripleNewline, hc]

theorem hasTriple_nl_cons_ne (c : Char) (hc : ¬ c = '\n') (l : List Char) :
    hasTripleNewline ('\n' :: c :: l) = hasTripleNewline l := by
  match l with
  | [] => simp [hasTripleNewline]
  | d :: l' => simp [hasTripleNewline, hc, hasTriple_cons_ne c hc (d :: l')]

theorem hasTriple_nl2_cons_ne (c : Char) (hc : ¬ c = '\n') (l : List Char) :
    hasTripleNewline ('\n' :: '\n' :: c :: l) = hasTripleNewline l := by
  simp [hasTripleNewline, hc, hasTriple_nl_cons_ne c hc l]

theorem collapseGo_noTriple (s : List Char) : ∀ k : Nat,
    hasTripleNewline (collapseGo k s) = false := by
  induction s with
  | nil =>
    intro k
    show hasTripleNewline (emitRun k) = false
    by_cases h3 : 3 ≤ k
    · simp [emitRun, h3, hasTripleNewline]
    · have hk : k < 3 := by omega
      interval_cases k <;> simp [emitRun, hasTripleNewline]
  | cons c cs ih =>
    intro k
    by_cases hc : c = '\n'
    · subst hc
      rw [collapseGo, if_pos rfl]
      exact ih (k + 1)
    · rw [collapseGo, if_neg hc]
      have h0 := ih 0
      by_cases h3 : 3 ≤ k
      · simpa [emitRun, h3, hasTriple_nl2_cons_ne c hc] using h0
      · have hk : k < 3 := by omega
        interval_cases k <;>
          simpa [emitRun, hasTriple_cons_ne c hc, hasTriple_nl_cons_ne c hc,
            hasTriple_nl2_cons_ne c hc] using h0

/-! ## Claim theorems -/

/-- C10: for every input string, the output of `format_mdx_file` contains no
occurrence of three consecutive newline characters: the final collapse pass
replaces every run of three or more newlines with exactly two, so even a run
of three newlines (two blank lines) is collapsed, including inside fenced
code regions (the collapse is the last, global pass). -/
theorem claim_C10 (s : String) :
    hasTripleNewline (format_mdx_file s).toList = false := by
  simp only [format_mdx_file, format_core, collapse_blank_lines, toList_mk]
  exact collapseGo_noTriple _ 0

set_option maxRecDepth 10000

/-- C1 is false: a fenced code region whose contents are shortcode-like text
is rewritten by the pipeline — the shortcode pass runs without fenced-code
protection, so the fence's contents are not byte-identical in the output. -/
theorem claim_C1_counterexample :
    format_mdx_file "```\n\x7b\x7b% details title=\"T\" %\x7d\x7dhi\x7b\x7b% /details %\x7d\x7d\n```"
        = "```\n<Accordions>\n<Accordion title=\"T\">\nhi\n</Accordion>\n</Accordions>\n```" ∧
      format_mdx_file "```\n\x7b\x7b% details title=\"T\" %\x7d\x7dhi\x7b\x7b% /details %\x7d\x7d\n```"
        ≠ "```\n\x7b\x7b% details title=\"T\" %\x7d\x7dhi\x7b\x7b% /details %\x7d\x7d\n```" := by
  constructor
  · decide
  · decide

/-- C2 is violated by the code: re-running the pipeline on its own output
wraps an already wrapped accordion group in a second `<Accordions>`
container, so `format_mdx_file` is not idempotent. -/
theorem claim_C2_code_divergence :
    format_mdx_file (format_mdx_file "\x7b\x7b% details title=\"T\" %\x7d\x7dhi\x7b\x7b% /details %\x7d\x7d")
        ≠ format_mdx_file "\x7b\x7b% details title=\"T\" %\x7d\x7dhi\x7b\x7b% /details %\x7d\x7d" ∧
      format_mdx_file (format_mdx_file "\x7b\x7b% details title=\"T\" %\x7d\x7dhi\x7b\x7b% /details %\x7d\x7d")
        = "<Accordions>\n<Accordions>\n<Accordion title=\"T\">\nhi\n</Accordion>\n</Accordions>\n</Accordions>" := by
  constructor
  · decide
  · decide

/-- C3 is false: the pipeline performs no brace escaping inside math spans —
the output for `"$x = {1, 2, 3}$"` contains braces but no backslash at all,
so no brace inside the span is preceded by a backslash. -/
theorem claim_C3_counterexample :
    format_mdx_file "$x = \x7b1, 2, 3\x7d$" = "$$x = \x7b1, 2, 3\x7d$$" ∧
      containsChar (format_mdx_file "$x = \x7b1, 2, 3\x7d$").toList '\x7b' = true ∧
      containsChar (format_mdx_file "$x = \x7b1, 2, 3\x7d$").toList '\\' = false := by
  refine ⟨?_, ?_, ?_⟩
  · decide
  · decide
  · decide

/-- C3 amended: within detected math spans the pipeline leaves `{` and `}`
unchanged — the inline pass only doubles the dollar delimiters and the block
pass only re-fences the content; no backslash is ever inserted. -/
theorem claim_C3_amended :
    convert_inline_math ("$x = \x7b1, 2, 3\x7d$".toList)
        = ("$$x = \x7b1, 2, 3\x7d$$".toList) ∧
      convert_math_blocks ("$$x = \x7b1, 2, 3\x7d$$".toList)
        = ("```math\nx = \x7b1, 2, 3\x7d\n```".toList) := by
  constructor
  · decide
  · decide

/-- C4 is false: `format_mdx_file` is not the spec-order composition — the
code runs the shortcode converter before the math normalizer, and on this
input the two orders produce different outputs. -/
theorem claim_C4_counterexample :
    format_mdx_file "\x7b\x7b% details title=\"T\" %\x7d\x7d $a b \x7b\x7b% /details %\x7d\x7d c$"
      ≠ spec_order_pipeline "\x7b\x7b% details title=\"T\" %\x7d\x7d $a b \x7b\x7b% /details %\x7d\x7d c$" := by
  decide

/-- C4 amended: `format_mdx_file` equals the composition Structural Cleaner →
Inline-Style Rewriter → Shortcode Converter → Math Normalizer (block then
inline) → blank-line collapse; i.e. the shortcode converter runs before the
math normalizer. -/
theorem claim_C4_amended (s : String) :
    format_mdx_file s =
      String.mk
        (collapse_blank_lines
          (convert_inline_math
            (convert_math_blocks
              (convert_hugo_details_to_accordion
                (convert_style_to_jsx
                  (fix_malformed_html
                    (fix_self_closing_tags
                      (remove_shield_badges
                        (remove_html_comments s.toList))))))))) :=
  rfl

/-- C5 is false: an opener with no matching closer is not left as literal
text — the shortcode converter rewrites it to an `<Accordion>` opening tag
(and the wrapping pass closes the pending group at end of document). -/
theorem claim_C5_counterexample :
    convert_hugo_details_to_accordion ("\x7b\x7b% details title=\"T\" %\x7d\x7d\ntext".toList)
        ≠ ("\x7b\x7b% details title=\"T\" %\x7d\x7d\ntext".toList) ∧
      hasSubstr ("\x7b\x7b% details".toList)
        (convert_hugo_details_to_accordion ("\x7b\x7b% details title=\"T\" %\x7d\x7d\ntext".toList)) = false := by
  constructor
  · decide
  · decide

/-- C5 amended: on an opener without matching closer the shortcode converter
raises no error (it is a total function) but partially converts the block:
the opener becomes an `<Accordion title="...">` tag and the unterminated
group is wrapped in an `<Accordions>` container at end of document. -/
theorem claim_C5_amended :
    convert_hugo_details_to_accordion ("\x7b\x7b% details title=\"T\" %\x7d\x7d\ntext".toList)
      = ("<Accordions>\n<Accordion title=\"T\">\ntext\n</Accordions>".toList) := by
  decide

theorem inlineLoop_buffer_nl (rest : List Char) :
    ∀ (t r b : List Char), containsChar t '$' = false → containsChar t '\n' = false →
      inlineLoop (t ++ '\n' :: rest) r true b
        = inlineLoop rest (r ++ '$' :: (b ++ t ++ ['\n'])) false [] := by
  intro t
  induction t with
  | nil =>
    intro r b _ _
    simp [inlineLoop]
  | cons c t' ih =>
    intro r b h1 h2
    simp only [containsChar, Bool.or_eq_false_iff, decide_eq_false_iff_not] at h1 h2
    obtain ⟨hc1, ht1⟩ := h1
    obtain ⟨hc2, ht2⟩ := h2
    rw [List.cons_append, inlineLoop]
    simp only [hc1, hc2, if_false, ite_false, if_true, ite_true, reduceIte]
    rw [ih r (b ++ [c]) ht1 ht2]
    simp [List.append_assoc]

theorem inlineLoop_buffer_eof :
    ∀ (t r b : List Char), containsChar t '$' = false → containsChar t '\n' = false →
      inlineLoop t r true b = r ++ '$' :: (b ++ t) := by
  intro t
  induction t with
  | nil =>
    intro r b _ _
    simp [inlineLoop]
  | cons c t' ih =>
    intro r b h1 h2
    simp only [containsChar, Bool.or_eq_false_iff, decide_eq_false_iff_not] at h1 h2
    obtain ⟨hc1, ht1⟩ := h1
    obtain ⟨hc2, ht2⟩ := h2
    rw [inlineLoop]
    simp only [hc1, hc2, if_false, ite_false, if_true, ite_true, reduceIte]
    rw [ih r (b ++ [c]) ht1 ht2]
    simp [List.append_assoc]

/-- C7: when a single-marker math span is never closed, the inline-math scan
emits the opening `$` and all buffered characters unchanged.  First
conjunct: a newline while in math mode flushes `$`, the buffered span and
the newline verbatim, exits math mode, and continues scanning the rest from
a clean state.  Second conjunct: end of input while in math mode emits `$`
and the buffer verbatim — no content is dropped and no conversion happens. -/
theorem claim_C7 (r t rest : List Char) (hr : endsWithDollar r = false)
    (h1 : containsChar t '$' = false) (h2 : containsChar t '\n' = false) :
    inlineLoop ('$' :: (t ++ '\n' :: rest)) r false [] =
        inlineLoop rest (r ++ '$' :: (t ++ ['\n'])) false [] ∧
      inlineLoop ('$' :: t) r false [] = r ++ '$' :: t := by
  constructor
  · cases t with
    | nil =>
      rw [inlineLoop]
      simp [inlineLoop, hr]
    | cons c t' =>
      have hc1 : ¬ c = '$' := by
        simp only [containsChar, Bool.or_eq_false_iff, decide_eq_false_iff_not] at h1
        exact h1.1
      have hc2 : ¬ c = '\n' := by
        simp only [containsChar, Bool.or_eq_false_iff, decide_eq_false_iff_not] at h2
        exact h2.1
      rw [List.cons_append, inlineLoop]
      simp only [List.head?_cons, hr, hc1, hc2, Option.some.injEq, if_false,
        ite_false, if_true, ite_true, reduceIte, Bool.false_eq_true]
      rw [← List.cons_append, inlineLoop_buffer_nl rest (c :: t') r [] h1 h2]
      simp
  · cases t with
    | nil =>
      rw [inlineLoop]
      simp [inlineLoop, hr]
    | cons c t' =>
      have hc1 : ¬ c = '$' := by
        simp only [containsChar, Bool.or_eq_false_iff, decide_eq_false_iff_not] at h1
        exact h1.1
      have hc2 : ¬ c = '\n' := by
        simp only [containsChar, Bool.or_eq_false_iff, decide_eq_false_iff_not] at h2
        exact h2.1
      rw [inlineLoop]
      simp only [List.head?_cons, hr, hc1, hc2, Option.some.injEq, if_false,
        ite_false, if_true, ite_true, reduceIte, Bool.false_eq_true]
      rw [inlineLoop_buffer_eof (c :: t') r [] h1 h2]
      simp

/-- Witness for C7 at the spec's own example `"$unterminated\nmore text"`
and at an input ending inside an unclosed span. -/
theorem claim_C7_witness :
    inlineLoop ('$' :: (("unterminated".toList) ++ '\n' :: ("more text".toList))) [] false [] =
        inlineLoop ("more text".toList) ([] ++ '$' :: (("unterminated".toList) ++ ['\n'])) false [] ∧
      inlineLoop ('$' :: ("unterminated".toList)) [] false [] = [] ++ '$' :: ("unterminated".toList) :=
  claim_C7 [] ("unterminated".toList) ("more text".toList) (by decide) (by decide) (by decide)

/-! ## Lemmas for the block-math pass (claim C8) -/

theorem optNl_no_char (b : Bool) (x : Char) (hx : ¬ x = '\n') :
    containsChar (optNl b) x = false := by
  cases b <;> simp [optNl, containsChar, Ne.symm hx]

theorem tryMathClose_through (nb : Bool) (post : List Char) :
    ∀ (c acc : List Char), containsChar c '$' = false → containsChar c '\r' = false →
      c.getLast? ≠ some '\n' →
      tryMathClose acc (c ++ (optNl nb ++ (("$$".toList) ++ post)))
        = some (acc.reverse ++ c, post) := by
  intro c
  induction c with
  | nil =>
    intro acc _ _ _
    cases nb with
    | true =>
      have e : optNl true ++ (("$$".toList) ++ post) = '\n' :: '$' :: '$' :: post := rfl
      simp only [List.nil_append, e]
      rw [tryMathClose]
      simp [startsWithL]
    | false =>
      have e : optNl false ++ (("$$".toList) ++ post) = '$' :: '$' :: post := rfl
      simp only [List.nil_append, e]
      rw [tryMathClose]
      simp [startsWithL]
  | cons x c' ih =>
    intro acc h1 h2 h3
    have hx1 : ¬ x = '$' := by
      simp only [containsChar, Bool.or_eq_false_iff, decide_eq_false_iff_not] at h1
      exact h1.1
    have hx2 : ¬ x = '\r' := by
      simp only [containsChar, Bool.or_eq_false_iff, decide_eq_false_iff_not] at h2
      exact h2.1
    have h1' : containsChar c' '$' = false := by
      simp only [containsChar, Bool.or_eq_false_iff, decide_eq_false_iff_not] at h1
      exact h1.2
    have h2' : containsChar c' '\r' = false := by
      simp only [containsChar, Bool.or_eq_false_iff, decide_eq_false_iff_not] at h2
      exact h2.2
    have h3' : c'.getLast? ≠ some '\n' := by
      cases c' with
      | nil => simp
      | cons y c'' => rw [List.getLast?_cons_cons] at h3; exact h3
    have hcond2 : (x = '\n' && startsWithL ("$$".toList)
        (c' ++ (optNl nb ++ (("$$".toList) ++ post)))) = false := by
      by_cases hx : x = '\n'
      · subst hx
        cases c' with
        | nil => exact absurd (by simp) h3
        | cons y c'' =>
          have hy : ¬ y = '$' := by
            simp only [containsChar, Bool.or_eq_false_iff, decide_eq_false_iff_not] at h1'
            exact h1'.1
          simp [startsWithL, Ne.symm hy]
      · simp [hx]
    rw [List.cons_append, tryMathClose]
    simp only [hx1, hx2, hcond2, if_false, ite_false, Bool.false_and,
      decide_False, Bool.false_eq_true, reduceIte]
    rw [ih (x :: acc) h1' h2' h3']
    simp

theorem stepMath_at (na nb : Bool) (c post : List Char)
    (h1 : containsChar c '$' = false) (h2 : containsChar c '\r' = false)
    (hh : c.head? ≠ some '\n') (hl : c.getLast? ≠ some '\n') :
    stepMath (("$$".toList) ++ (optNl na ++ (c ++ (optNl nb ++ (("$$".toList) ++ post)))))
      = some (("```math\n".toList) ++ c ++ ("\n```".toList), post) := by
  rw [stepMath]
  simp only [startsWithL_append_self, if_true, ite_true, reduceIte]
  rw [show ∀ Y : List Char, (("$$".toList) ++ Y).drop 2 = Y from fun _ => rfl]
  cases na with
  | true =>
    rw [show ∀ Z : List Char, optNl true ++ Z = '\n' :: Z from fun _ => rfl]
    simp only [startsWithL, decide_False, Bool.false_and, Bool.false_eq_true,
      reduceIte, decide_True, Bool.true_and, List.drop_succ_cons, List.drop_zero,
      Char.reduceEq]
    rw [tryMathClose_through nb post c [] h1 h2 hl]
    simp
  | false =>
    rw [show ∀ Z : List Char, optNl false ++ Z = Z from fun _ => rfl]
    cases c with
    | nil =>
      simp only [List.nil_append]
      cases nb with
      | true =>
        rw [show optNl true ++ (("$$".toList) ++ post) = '\n' :: '$' :: '$' :: post from rfl]
        simp only [startsWithL, decide_False, Bool.false_and, Bool.false_eq_true,
          reduceIte, decide_True, Bool.true_and, List.drop_succ_cons,
          List.drop_zero, Char.reduceEq]
        rw [tryMathClose]
        simp [startsWithL]
      | false =>
        rw [show optNl false ++ (("$$".toList) ++ post) = '$' :: '$' :: post from rfl]
        simp only [startsWithL, decide_False, Bool.false_and, Bool.false_eq_true,
          reduceIte, decide_True, Bool.true_and, List.drop_zero, Char.reduceEq]
        rw [tryMathClose]
        simp [startsWithL]
    | cons x c' =>
      have hx : ¬ x = '\n' := by
        simp only [List.head?_cons, ne_eq, Option.some.injEq] at hh
        exact hh
      have hxr : ¬ x = '\r' := by
        simp only [containsChar, Bool.or_eq_false_iff, decide_eq_false_iff_not] at h2
        exact h2.1
      rw [List.cons_append]
      simp only [startsWithL, Ne.symm hx, Ne.symm hxr, decide_False,
        Bool.false_and, Bool.false_eq_true, reduceIte, decide_eq_false,
        List.drop_zero]
      rw [← List.cons_append, tryMathClose_through nb post (x :: c') [] h1 h2 hl]
      simp



theorem scanReplace_succ (step : List Char → Option (List Char × List Char))
    (fuel : Nat) (s : List Char) :
    scanReplace step (fuel + 1) s =
      match step s with
      | some (repl, rest) => repl ++ scanReplace step fuel rest
      | none =>
        match s with
        | [] => []
        | c :: cs => c :: scanReplace step fuel cs := rfl

theorem findFences_succ (fuel : Nat) (s : List Char) :
    findFences (fuel + 1) s =
      match fenceMatch s with
      | some (m, rest) => m :: findFences fuel rest
      | none =>
        match s with
        | [] => []
        | _ :: cs => findFences fuel cs := rfl

theorem startsWith3bt_false (s : List Char) (h : containsChar s '`' = false) :
    startsWithL ("```".toList) s = false := by
  cases s with
  | nil => rfl
  | cons c cs =>
    have hc : ¬ c = '`' := by
      simp only [containsChar, Bool.or_eq_false_iff, decide_eq_false_iff_not] at h
      exact h.1
    simp [show ("```".toList) = ['`', '`', '`'] from rfl, startsWithL, Ne.symm hc]

theorem fenceMatch_none (s : List Char) (h : containsChar s '`' = false) :
    fenceMatch s = none := by
  rw [fenceMatch, startsWith3bt_false s h]
  simp

theorem findFences_nil : ∀ (f : Nat) (s : List Char), containsChar s '`' = false →
    findFences f s = [] := by
  intro f
  induction f with
  | zero => intro s _; rfl
  | succ f ih =>
    intro s h
    rw [findFences_succ, fenceMatch_none s h]
    cases s with
    | nil => rfl
    | cons c cs =>
      have h' : containsChar cs '`' = false := by
        simp only [containsChar, Bool.or_eq_false_iff, decide_eq_false_iff_not] at h
        exact h.2
      exact ih cs h'

theorem stepMath_cons_none (c : Char) (l : List Char) (hc : ¬ c = '$') :
    stepMath (c :: l) = none := by
  rw [stepMath]
  simp [show ("$$".toList) = ['$', '$'] from rfl, startsWithL, Ne.symm hc]

theorem scanReplace_math_id : ∀ (f : Nat) (s : List Char), containsChar s '$' = false →
    scanReplace stepMath f s = s := by
  intro f
  induction f with
  | zero => intro s _; rfl
  | succ f ih =>
    intro s h
    cases s with
    | nil =>
      rw [scanReplace]
      simp [stepMath, show ("$$".toList) = ['$', '$'] from rfl, startsWithL]
    | cons c cs =>
      have hc : ¬ c = '$' := by
        simp only [containsChar, Bool.or_eq_false_iff, decide_eq_false_iff_not] at h
        exact h.1
      have h' : containsChar cs '$' = false := by
        simp only [containsChar, Bool.or_eq_false_iff, decide_eq_false_iff_not] at h
        exact h.2
      rw [scanReplace, stepMath_cons_none c cs hc]
      simp only []
      rw [ih cs h']

theorem scanReplace_skip_math : ∀ (pre : List Char) (f : Nat) (X : List Char),
    containsChar pre '$' = false →
    scanReplace stepMath (f + pre.length) (pre ++ X) = pre ++ scanReplace stepMath f X := by
  intro pre
  induction pre with
  | nil => intro f X _; rfl
  | cons p pre' ih =>
    intro f X h
    have hp : ¬ p = '$' := by
      simp only [containsChar, Bool.or_eq_false_iff, decide_eq_false_iff_not] at h
      exact h.1
    have h' : containsChar pre' '$' = false := by
      simp only [containsChar, Bool.or_eq_false_iff, decide_eq_false_iff_not] at h
      exact h.2
    rw [List.length_cons, ← Nat.add_assoc, List.cons_append, scanReplace,
      stepMath_cons_none p _ hp]
    simp only []
    rw [ih f X h']
    rfl

/-- C8: the block-math pass converts a double-dollar-delimited region outside
fenced code — with or without newlines adjacent to either delimiter — into a
fenced "math" region whose inner text is the captured content verbatim, with
no extra blank lines.  `pre`/`post` are surrounding text without dollar or
backtick characters; `na`/`nb` choose whether each delimiter carries its
optional newline. -/
theorem claim_C8 (pre c post : List Char) (na nb : Bool)
    (hpre1 : containsChar pre '$' = false) (hpre2 : containsChar pre '`' = false)
    (hc1 : containsChar c '$' = false) (hc2 : containsChar c '`' = false)
    (hc3 : containsChar c '\r' = false)
    (hc4 : c.head? ≠ some '\n') (hc5 : c.getLast? ≠ some '\n')
    (hpost1 : containsChar post '$' = false) (hpost2 : containsChar post '`' = false) :
    convert_math_blocks
        (pre ++ (("$$".toList) ++ (optNl na ++ (c ++ (optNl nb ++ (("$$".toList) ++ post))))))
      = pre ++ (("```math\n".toList) ++ (c ++ (("\n```".toList) ++ post))) := by
  have hbt : containsChar
      (pre ++ (("$$".toList) ++ (optNl na ++ (c ++ (optNl nb ++ (("$$".toList) ++ post)))))) '`'
        = false := by
    simp [containsChar_append, containsChar, hpre2, hc2, hpost2,
      optNl_no_char na '`' (by decide), optNl_no_char nb '`' (by decide)]
  have hfence := findFences_nil
    ((pre ++ (("$$".toList) ++ (optNl na ++ (c ++ (optNl nb ++ (("$$".toList) ++ post)))))).length + 1)
    _ hbt
  simp only [convert_math_blocks, hfence, protectLoop, restoreLoop]
  have hfuel :
      (pre ++ (("$$".toList) ++ (optNl na ++ (c ++ (optNl nb ++ (("$$".toList) ++ post)))))).length + 1
        = ((("$$".toList) ++ (optNl na ++ (c ++ (optNl nb ++ (("$$".toList) ++ post))))).length + 1)
            + pre.length := by
    simp [List.length_append]
    omega
  rw [hfuel, scanReplace_skip_math pre _ _ hpre1, scanReplace_succ,
    stepMath_at na nb c post hc1 hc3 hc4 hc5]
  simp only []
  rw [scanReplace_math_id _ post hpost1]
  simp [List.append_assoc]

/-- Witness for C8 at the spec's concrete example
`"a\n$$\nx = y + z\n$$\nb"`. -/
theorem claim_C8_witness :
    convert_math_blocks
        (("a\n".toList) ++ (("$$".toList) ++ (optNl true ++ (("x = y + z".toList)
          ++ (optNl true ++ (("$$".toList) ++ ("\nb".toList)))))))
      = ("a\n".toList) ++ (("```math\n".toList) ++ (("x = y + z".toList)
          ++ (("\n```".toList) ++ ("\nb".toList)))) :=
  claim_C8 ("a\n".toList) ("x = y + z".toList) ("\nb".toList) true true
    (by decide) (by decide) (by decide) (by decide) (by decide)
    (by decide) (by decide) (by decide) (by decide)


/-- C6: the inline-math pass promotes a single-dollar span closed on the same
line to double-dollar form, and passes an already double-delimited span
through unchanged. -/
theorem claim_C6 :
    convert_inline_math ("The equation $x = y$ is simple.".toList)
        = ("The equation $$x = y$$ is simple.".toList) ∧
      convert_inline_math ("Text $$x = y$$ more".toList)
        = ("Text $$x = y$$ more".toList) := by
  constructor
  · decide
  · decide

/-! ## Lemmas for the style rewriter (claim C9) -/


theorem containsChar_dropWhileL (p : Char → Bool) (s : List Char) (x : Char)
    (h : containsChar s x = false) : containsChar (dropWhileL p s) x = false := by
  induction s with
  | nil => exact h
  | cons c cs ih =>
    simp only [containsChar, Bool.or_eq_false_iff] at h
    rw [dropWhileL]
    by_cases hp : p c
    · simp only [hp, if_true, ite_true, reduceIte]
      exact ih h.2
    · simp only [hp, if_false, ite_false, Bool.false_eq_true, reduceIte, containsChar]
      rw [h.1, h.2]
      rfl

theorem containsChar_reverse (s : List Char) (x : Char) :
    containsChar s.reverse x = containsChar s x := by
  induction s with
  | nil => rfl
  | cons c cs ih =>
    rw [List.reverse_cons, containsChar_append, ih]
    simp [containsChar, Bool.or_comm]

theorem containsChar_trimL (s : List Char) (x : Char)
    (h : containsChar s x = false) : containsChar (trimL s) x = false := by
  rw [trimL, containsChar_reverse]
  apply containsChar_dropWhileL
  rw [containsChar_reverse]
  exact containsChar_dropWhileL _ _ _ h

theorem splitOnCharL_sub (sep x : Char) : ∀ (v : List Char), containsChar v x = false →
    ∀ seg ∈ splitOnCharL sep v, containsChar seg x = false := by
  intro v
  induction v with
  | nil =>
    intro _ seg hseg
    simp only [splitOnCharL, List.mem_singleton] at hseg
    subst hseg
    rfl
  | cons c cs ih =>
    intro h seg hseg
    simp only [containsChar, Bool.or_eq_false_iff] at h
    by_cases hcs : c = sep
    · rw [splitOnCharL, if_pos hcs] at hseg
      rcases List.mem_cons.mp hseg with h1 | h1
      · subst h1; rfl
      · exact ih h.2 seg h1
    · rw [splitOnCharL, if_neg hcs] at hseg
      rcases hsplit : splitOnCharL sep cs with _ | ⟨p, ps⟩
      · rw [hsplit, List.mem_singleton] at hseg
        subst hseg
        simp [containsChar, h.1]
      · rw [hsplit] at hseg
        rcases List.mem_cons.mp hseg with h1 | h1
        · subst h1
          simp only [containsChar, h.1, Bool.false_or]
          exact ih h.2 p (hsplit ▸ List.mem_cons_self p ps)
        · exact ih h.2 seg (hsplit ▸ List.mem_cons_of_mem p h1)

theorem captureToQuote_at : ∀ (v rest : List Char), containsChar v '\"' = false →
    captureToQuote (v ++ '\"' :: rest) = some (v, rest) := by
  intro v
  induction v with
  | nil =>
    intro rest _
    simp [captureToQuote]
  | cons c v' ih =>
    intro rest h
    simp only [containsChar, Bool.or_eq_false_iff, decide_eq_false_iff_not] at h
    rw [List.cons_append, captureToQuote]
    simp only [h.1, if_false, ite_false, Bool.false_eq_true, reduceIte]
    rw [ih rest h.2]
    rfl

theorem renderStyle_nil (v : List Char) (h : containsChar v ':' = false) :
    renderStyle v = [] := by
  rw [renderStyle]
  have hprops : ((splitOnCharL ';' v).filterMap (fun seg =>
      let prop := trimL seg
      if prop = [] || !containsChar prop ':' then none
      else
        match splitFirstColon prop with
        | some (lhs, rhs) =>
          some (css_property_to_camel_case (trimL lhs) ++ (": \"".toList)
            ++ trimL rhs ++ ['\"'])
        | none => none)) = [] := by
    refine List.filterMap_eq_nil_iff.mpr ?_
    intro seg hseg
    have hnc : containsChar (trimL seg) ':' = false :=
      containsChar_trimL seg ':' (splitOnCharL_sub ';' ':' v h seg hseg)
    simp [hnc]
  rw [hprops]
  rfl

theorem scanReplace_nil_of_none (step : List Char → Option (List Char × List Char))
    (h : step [] = none) : ∀ f : Nat, scanReplace step f [] = [] := by
  intro f
  cases f with
  | zero => rfl
  | succ f => rw [scanReplace_succ, h]

/-- C9: the style rewriter converts a `style="..."` attribute into
`style={{...}}` with each declaration's property name translated from
kebab-case to camelCase, splitting each declaration on its first colon only
(second conjunct: the value `url(a:b)` keeps its colon), and removes the
entire attribute, with no `style={{}}` residue, when the declaration list is
empty after filtering (final, universally quantified conjunct). -/
theorem claim_C9 :
    convert_style_to_jsx ("<div style=\"text-align:center;color:red;\"></div>".toList)
        = ("<div style=\x7b\x7btextAlign: \"center\", color: \"red\"\x7d\x7d></div>".toList) ∧
      convert_style_to_jsx ("<p style=\"background:url(a:b)\"></p>".toList)
        = ("<p style=\x7b\x7bbackground: \"url(a:b)\"\x7d\x7d></p>".toList) ∧
      css_property_to_camel_case ("border-top-left-radius".toList)
        = ("borderTopLeftRadius".toList) ∧
      ∀ v : List Char, containsChar v ':' = false → containsChar v '\"' = false →
        convert_style_to_jsx (("style=\"".toList) ++ v ++ ['\"']) = [] := by
  refine ⟨by decide, by decide, by decide, ?_⟩
  intro v h1 h2
  rw [convert_style_to_jsx, scanReplace_succ]
  have hstep : stepStyle (("style=\"".toList) ++ v ++ ['\"']) = some (renderStyle v, []) := by
    rw [stepStyle]
    have hsw : startsWithL ("style=\"".toList) (("style=\"".toList) ++ v ++ ['\"']) = true := by
      rw [List.append_assoc]
      exact startsWithL_append_self _ _
    rw [hsw]
    simp only [if_true, ite_true, reduceIte]
    have hdrop : (("style=\"".toList) ++ v ++ ['\"']).drop 7 = v ++ ['\"'] := by
      rw [List.append_assoc, show (7 : Nat) = ("style=\"".toList).length from rfl,
        List.drop_left]
    rw [hdrop, show v ++ ['\"'] = v ++ '\"' :: [] from rfl, captureToQuote_at v [] h2]
  rw [hstep]
  simp only [List.nil_append]
  rw [renderStyle_nil v h1, scanReplace_nil_of_none stepStyle (by rfl) _]
  rfl

/-- Witness for C9's universal conjunct: a style value with no colon-bearing
declaration is removed entirely, leaving no `style={{}}` residue. -/
theorem claim_C9_witness :
    convert_style_to_jsx (("style=\"".toList) ++ ("nonsense".toList) ++ ['\"']) = [] :=
  claim_C9.2.2.2 ("nonsense".toList) (by decide) (by decide)

/-! ## Lemmas for fence preservation by the math passes (claim C1) -/

theorem startsWithL_self (p : List Char) : startsWithL p p = true := by
  have h := startsWithL_append_self p []
  rwa [List.append_nil] at h

theorem inlineLoop_copy : ∀ (t r : List Char), containsChar t '$' = false →
    inlineLoop t r false [] = r ++ t := by
  intro t
  induction t with
  | nil =>
    intro r _
    simp [inlineLoop]
  | cons c cs ih =>
    intro r h
    simp only [containsChar, Bool.or_eq_false_iff, decide_eq_false_iff_not] at h
    rw [inlineLoop]
    simp only [h.1, if_false, ite_false, Bool.false_eq_true, reduceIte]
    rw [ih (r ++ [c]) h.2]
    simp

theorem findFenceClose_at (rest : List Char) :
    ∀ (body acc : List Char), containsChar body '`' = false →
      findFenceClose acc (body ++ (("```".toList) ++ rest))
        = some (acc.reverse ++ body ++ ("```".toList), rest) := by
  intro body
  induction body with
  | nil =>
    intro acc _
    simp only [List.nil_append]
    rw [show ("```".toList) ++ rest = '`' :: '`' :: '`' :: rest from rfl, findFenceClose]
    simp [startsWithL, show ("```".toList) = ['`', '`', '`'] from rfl]
  | cons c b' ih =>
    intro acc h
    simp only [containsChar, Bool.or_eq_false_iff, decide_eq_false_iff_not] at h
    rw [List.cons_append, findFenceClose]
    simp only [show ("```".toList) = ['`', '`', '`'] from rfl, startsWithL,
      Ne.symm h.1, decide_False, Bool.false_and, Bool.false_eq_true, reduceIte,
      decide_eq_false]
    rw [show ['`', '`', '`'] = ("```".toList) from rfl, ih (c :: acc) h.2]
    simp

theorem fenceMatch_whole (body : List Char) (h : containsChar body '`' = false) :
    fenceMatch (("```".toList) ++ (body ++ ("```".toList)))
      = some (("```".toList) ++ (body ++ ("```".toList)), []) := by
  rw [fenceMatch]
  simp only [startsWithL_append_self, if_true, ite_true, reduceIte]
  rw [show ∀ Y : List Char, (("```".toList) ++ Y).drop 3 = Y from fun _ => rfl]
  have h2 := findFenceClose_at [] body [] h
  simp only [List.append_nil, List.reverse_nil, List.nil_append] at h2
  rw [h2]

theorem findFences_whole (body : List Char) (h : containsChar body '`' = false)
    (fuel : Nat) :
    findFences (fuel + 1) (("```".toList) ++ (body ++ ("```".toList)))
      = [("```".toList) ++ (body ++ ("```".toList))] := by
  rw [findFences_succ, fenceMatch_whole body h]
  simp only []
  rw [findFences_nil fuel [] rfl]

theorem protect_whole (body : List Char) :
    protectLoop 0 [("```".toList) ++ (body ++ ("```".toList))]
        (("```".toList) ++ (body ++ ("```".toList)))
      = placeholderTok 0 := by
  rw [protectLoop, protectLoop,
    show ("```".toList) ++ (body ++ ("```".toList))
      = '`' :: ('`' :: ('`' :: (body ++ ("```".toList)))) from rfl,
    replaceFirst]
  simp only [startsWithL_self, if_true, ite_true, reduceIte, List.drop_length]
  simp

theorem restore_whole (s : List Char) :
    restoreLoop 0 [s] (placeholderTok 0) = s := by
  rw [restoreLoop, restoreLoop, replaceAllLit, scanReplace_succ]
  have hstep : stepLiteral (placeholderTok 0) s (placeholderTok 0) = some (s, []) := by
    rw [stepLiteral]
    simp only [startsWithL_self, if_true, ite_true, reduceIte, List.drop_length]
  rw [hstep]
  simp only []
  rw [scanReplace_nil_of_none (stepLiteral (placeholderTok 0) s) ?hnone _]
  · simp
  case hnone =>
    rw [stepLiteral]
    simp [show startsWithL (placeholderTok 0) [] = false from by decide]

/-- C1 amended: fenced-code inviolability holds for the two math passes — the
only passes that use the placeholder vault.  For any fenced region (contents
arbitrary apart from containing no backtick, hence no nested fence), both
`convert_math_blocks` and `convert_inline_math` leave the document consisting
of that region byte-identical; in particular `$`, `{`, `}` inside a fence
survive both math passes.  The pipeline as a whole does not guarantee it:
shortcode-like text inside a fence is rewritten (see the counterexample), and
the unprotected final blank-line collapse also applies inside fences (third
conjunct). -/
theorem claim_C1_amended (body : List Char) (h : containsChar body '`' = false) :
    convert_math_blocks (("```".toList) ++ (body ++ ("```".toList)))
        = ("```".toList) ++ (body ++ ("```".toList)) ∧
      convert_inline_math (("```".toList) ++ (body ++ ("```".toList)))
        = ("```".toList) ++ (body ++ ("```".toList)) ∧
      format_mdx_file "```\n$a$\n\n\n\nb\n```" = "```\n$a$\n\nb\n```" := by
  refine ⟨?_, ?_, by decide⟩
  · simp only [convert_math_blocks, findFences_whole body h]
    rw [protect_whole body,
      scanReplace_math_id ((placeholderTok 0).length + 1) (placeholderTok 0) (by decide)]
    exact restore_whole _
  · simp only [convert_inline_math, findFences_whole body h]
    rw [protect_whole body, inlineLoop_copy (placeholderTok 0) [] (by decide),
      List.nil_append]
    exact restore_whole _

/-- Witness for the amended C1 at a fence body containing `$`, `$$`, and
braces. -/
theorem claim_C1_amended_witness :
    convert_math_blocks (("```".toList) ++ (("\n$x$ and $$y$$ and \x7ba\x7d\n".toList) ++ ("```".toList)))
        = ("```".toList) ++ (("\n$x$ and $$y$$ and \x7ba\x7d\n".toList) ++ ("```".toList)) ∧
      convert_inline_math (("```".toList) ++ (("\n$x$ and $$y$$ and \x7ba\x7d\n".toList) ++ ("```".toList)))
        = ("```".toList) ++ (("\n$x$ and $$y$$ and \x7ba\x7d\n".toList) ++ ("```".toList)) ∧
      format_mdx_file "```\n$a$\n\n\n\nb\n```" = "```\n$a$\n\nb\n```" :=
  claim_C1_amended ("\n$x$ and $$y$$ and \x7ba\x7d\n".toList) (by decide)

end Hoa
